import Mathlib

/-!
Shallow embedding of the woboo interpreter (src/main.rs): the compiler
`preprocess` with its grouping and bracket resolution, and the execution
engine `execute`, modelled instruction for instruction from the Rust
source. Machine integers are modelled as Nat with explicit wrap-around
moduli where the Rust release-mode arithmetic wraps, and every vector
access that Rust bounds-checks is modelled as a fallible lookup whose
failure is a panic outcome.
-/

/-- One compiled operation of the tape machine, as declared in main.rs
(enum Instruction): six run-length counted primitive operations and the
two loop markers carrying a jump destination. -/
inductive Instruction where
  | OpVinc (quantity : Nat)
  | OpVdec (quantity : Nat)
  | OpPinc (quantity : Nat)
  | OpPdec (quantity : Nat)
  | OpIn (quantity : Nat)
  | OpOut (quantity : Nat)
  | OpLstart (destination : Nat)
  | OpLend (destination : Nat)
  deriving DecidableEq

/-- Discriminant comparison of two instructions (main.rs variant_eq):
true exactly when the two values use the same constructor, payloads
ignored. -/
def variant_eq : Instruction → Instruction → Bool
  | .OpVinc _, .OpVinc _ => true
  | .OpVdec _, .OpVdec _ => true
  | .OpPinc _, .OpPinc _ => true
  | .OpPdec _, .OpPdec _ => true
  | .OpIn _, .OpIn _ => true
  | .OpOut _, .OpOut _ => true
  | .OpLstart _, .OpLstart _ => true
  | .OpLend _, .OpLend _ => true
  | _, _ => false

/-- Counter bump used by the grouping pass (main.rs Instruction::inc):
adds one to the quantity of the six counted kinds and leaves the two
loop markers unchanged. -/
def Instruction.inc : Instruction → Instruction
  | .OpVinc q => .OpVinc (q + 1)
  | .OpVdec q => .OpVdec (q + 1)
  | .OpPinc q => .OpPinc (q + 1)
  | .OpPdec q => .OpPdec (q + 1)
  | .OpIn q => .OpIn (q + 1)
  | .OpOut q => .OpOut (q + 1)
  | i => i

/-- Ways preprocess aborts: the two explicit panics of main.rs
(unmatched close bracket, open brackets left at end of source) and the
implicit panic of a vector access with an out-of-range index. -/
inductive CompileFailure where
  | unmatchedClose
  | unmatchedOpen
  | indexOutOfBounds
  deriving DecidableEq

/-- State threaded through the preprocess loop of main.rs: the
instruction vector, the grouping index and the bracket position stack. -/
structure PState where
  instrs : List Instruction
  index : Nat
  stack : List Nat
  deriving DecidableEq

/-- Grouping phase of preprocess (main.rs lines 118 to 128), run after
each push: when index is positive the entries at index - 1 and index are
compared by discriminant, and on a match the newest entry is popped and
the previous one's counter bumped, otherwise index advances by one;
indexing out of range aborts as the corresponding Rust access panics. -/
def groupStep (instrs : List Instruction) (index : Nat) (stack : List Nat) :
    Except CompileFailure PState :=
  if index > 0 then
    match instrs.get? (index - 1), instrs.get? index with
    | some a, some b =>
      if variant_eq a b then
        .ok ⟨(instrs.dropLast).set (index - 1) a.inc, index, stack⟩
      else
        .ok ⟨instrs, index + 1, stack⟩
    | _, _ => .error .indexOutOfBounds
  else
    .ok ⟨instrs, index + 1, stack⟩

/-- Treatment of one source character by preprocess (main.rs lines 94 to
128): each of the seven recognized operator characters pushes one
instruction and then runs the grouping phase, an open bracket also
records its position on the stack, a close bracket pops the stack
(aborting when it is empty), patches the popped position with a loop
start aimed at the current length and pushes a loop end aimed one past
the popped position, and every other character is skipped. -/
def stepChar (st : PState) (c : Char) : Except CompileFailure PState :=
  if c = '+' then groupStep (st.instrs ++ [.OpVinc 1]) st.index st.stack
  else if c = '-' then groupStep (st.instrs ++ [.OpVdec 1]) st.index st.stack
  else if c = '>' then groupStep (st.instrs ++ [.OpPinc 1]) st.index st.stack
  else if c = '<' then groupStep (st.instrs ++ [.OpPdec 1]) st.index st.stack
  else if c = '.' then groupStep (st.instrs ++ [.OpOut 1]) st.index st.stack
  else if c = '[' then
    groupStep (st.instrs ++ [.OpLstart 0]) st.index (st.instrs.length :: st.stack)
  else if c = ']' then
    match st.stack with
    | [] => .error .unmatchedClose
    | dest :: rest =>
      if dest < st.instrs.length then
        groupStep
          ((st.instrs.set dest (.OpLstart st.instrs.length)) ++ [.OpLend (dest + 1)])
          st.index rest
      else .error .indexOutOfBounds
  else .ok st

/-- Left to right traversal of the source characters, threading the
preprocess state and propagating the first abort. -/
def processChars : List Char → PState → Except CompileFailure PState
  | [], st => .ok st
  | c :: cs, st =>
    match stepChar st c with
    | .error e => .error e
    | .ok st2 => processChars cs st2

/-- Whole compilation (main.rs preprocess): run over every character
starting from the empty state, then abort when open brackets remain,
otherwise expose the built instruction vector. -/
def preprocess (buffer : List Char) : Except CompileFailure (List Instruction) :=
  match processChars buffer ⟨[], 0, []⟩ with
  | .error e => .error e
  | .ok st => if st.stack.length > 0 then .error .unmatchedOpen else .ok st.instrs

/-- Modulus of the 64 bit usize type used by the Rust code. -/
def USIZE : Nat := 2 ^ 64

/-- Release-mode wrapping addition on usize. -/
def wrapAddUsize (a b : Nat) : Nat := (a + b % USIZE) % USIZE

/-- Release-mode wrapping subtraction on usize. -/
def wrapSubUsize (a b : Nat) : Nat := (a + (USIZE - b % USIZE)) % USIZE

/-- Release-mode wrapping addition on a byte cell, the added quantity
first cast to u8. -/
def wrapAdd8 (v q : Nat) : Nat := (v + q % 256) % 256

/-- Release-mode wrapping subtraction on a byte cell, the subtracted
quantity first cast to u8. -/
def wrapSub8 (v q : Nat) : Nat := (v + (256 - q % 256)) % 256

/-- Outcome of a run: normal return carrying the final cells and the
byte codes printed, or an index-out-of-bounds panic carrying the byte
codes printed before the abort. -/
inductive RunResult where
  | finished (cells : List Nat) (output : List Nat)
  | panicked (output : List Nat)
  deriving DecidableEq

/-- Execution engine (main.rs execute), supplied with fuel because the
Rust recursion need not terminate: the entry guard compares the
instruction index against length - 1 computed in wrapping usize
arithmetic exactly as the Rust expression instructions.len() - 1 does,
each cell or instruction access is bounds checked and panics out of
range, value arithmetic is the release-mode wrapping add or sub of the
quantity cast to u8 applied in one step, pointer arithmetic is unchecked
wrapping usize arithmetic, output appends quantity copies of the current
cell, the loop markers jump on the zero test of the current cell, and
OpIn falls into the catch-all arm doing nothing. -/
def execute (instructions : List Instruction) :
    Nat → List Nat → Nat → Nat → List Nat → Option RunResult
  | 0, _, _, _, _ => none
  | fuel + 1, cells, cell_index, instruction_index, output =>
    if instruction_index > wrapSubUsize instructions.length 1 then
      some (.finished cells output)
    else
      match instructions.get? instruction_index with
      | none => some (.panicked output)
      | some instr =>
        match instr with
        | .OpVinc q =>
          match cells.get? cell_index with
          | none => some (.panicked output)
          | some v =>
            execute instructions fuel (cells.set cell_index (wrapAdd8 v q))
              cell_index (instruction_index + 1) output
        | .OpVdec q =>
          match cells.get? cell_index with
          | none => some (.panicked output)
          | some v =>
            execute instructions fuel (cells.set cell_index (wrapSub8 v q))
              cell_index (instruction_index + 1) output
        | .OpPinc q =>
          execute instructions fuel cells (wrapAddUsize cell_index q)
            (instruction_index + 1) output
        | .OpPdec q =>
          execute instructions fuel cells (wrapSubUsize cell_index q)
            (instruction_index + 1) output
        | .OpOut q =>
          match cells.get? cell_index with
          | none => some (.panicked output)
          | some v =>
            execute instructions fuel cells cell_index (instruction_index + 1)
              (output ++ List.replicate q v)
        | .OpLstart d =>
          match cells.get? cell_index with
          | none => some (.panicked output)
          | some v =>
            execute instructions fuel cells cell_index
              (if v = 0 then d else instruction_index + 1) output
        | .OpLend d =>
          match cells.get? cell_index with
          | none => some (.panicked output)
          | some v =>
            execute instructions fuel cells cell_index
              (if v > 0 then d else instruction_index + 1) output
        | .OpIn _ =>
          execute instructions fuel cells cell_index (instruction_index + 1) output

/-- Command line configuration of main.rs (struct Cli); the verbosity
field is omitted as pure logging plumbing. -/
structure Cli where
  minimum : Nat
  maximum : Nat
  cells : Nat
  eof_value : String
  file : String
  runtime : String
  value_behaviour : String
  pointer_behaviour : String
  deriving DecidableEq

/-- Run as wired up in main (main.rs lines 177 to 181): allocate
args.cells zeroed cells and execute the given instruction vector from
state (0, 0); no configuration field other than the cell count reaches
preprocess or execute. -/
def runProgram (args : Cli) (instructions : List Instruction) (fuel : Nat) :
    Option RunResult :=
  execute instructions fuel (List.replicate args.cells 0) 0 0 []

/-- Specification-side predicate: brackets of the source are balanced
and properly nested, checked by a left to right depth count. -/
def balancedAux : List Char → Nat → Bool
  | [], k => k == 0
  | c :: cs, k =>
    if c = '[' then balancedAux cs (k + 1)
    else if c = ']' then
      match k with
      | 0 => false
      | k2 + 1 => balancedAux cs k2
    else balancedAux cs k

/-- Balance of a whole source text, starting at depth zero. -/
def balanced (s : List Char) : Bool := balancedAux s 0

/-- Characters the compiler treats as operators; a comma is not one,
because the match in preprocess has no arm for it and it falls to the
catch-all skip. -/
def isOp (c : Char) : Bool :=
  (c == '+') || (c == '-') || (c == '>') || (c == '<') || (c == '.') ||
    (c == '[') || (c == ']')

/-- Two consecutive operators are benign for the bracket bookkeeping
unless both are open brackets or both are close brackets. -/
def adjOk (a b : Char) : Bool :=
  !((a == '[') && (b == '[')) && !((a == ']') && (b == ']'))

/-- No two consecutive characters of the list are identical brackets. -/
def noAdjBrackets : List Char → Bool
  | a :: b :: rest => adjOk a b && noAdjBrackets (b :: rest)
  | _ => true

/-- Compatibility of a possibly absent preceding operator with the next
operator character. -/
def prevOk : Option Char → Char → Bool
  | none, _ => true
  | some a, b => adjOk a b

/-- Numeric discriminant of an instruction, mirroring the Rust
std::mem::discriminant used by variant_eq. -/
def tag : Instruction → Nat
  | .OpVinc _ => 0
  | .OpVdec _ => 1
  | .OpPinc _ => 2
  | .OpPdec _ => 3
  | .OpIn _ => 4
  | .OpOut _ => 5
  | .OpLstart _ => 6
  | .OpLend _ => 7

/-- Stack soundness: every recorded bracket position points inside the
vector at an unpatched loop start placeholder. -/
def StackOk (l : List Instruction) (sk : List Nat) : Prop :=
  ∀ p ∈ sk, p < l.length ∧ l.get? p = some (Instruction.OpLstart 0)

/-- Every loop end in the vector points one past a loop start that in
turn points at the loop end's own position. -/
def Paired (l : List Instruction) : Prop :=
  ∀ i d, l.get? i = some (Instruction.OpLend d) →
    ∃ p, d = p + 1 ∧ p < i ∧ l.get? p = some (Instruction.OpLstart i)

/-- Every unpatched loop start placeholder is recorded on the stack. -/
def StartsOnStack (l : List Instruction) (sk : List Nat) : Prop :=
  ∀ p, l.get? p = some (Instruction.OpLstart 0) → p ∈ sk

/-- Every patched loop start points ahead at a loop end that points one
past the loop start's own position. -/
def StartPaired (l : List Instruction) : Prop :=
  ∀ p d, l.get? p = some (Instruction.OpLstart d) → 1 ≤ d →
    p < d ∧ l.get? d = some (Instruction.OpLend (p + 1))

/-- Inductive invariant of the preprocess loop, maintained on sources
without adjacent identical brackets. -/
structure PreInv (st : PState) : Prop where
  idx : st.index = st.instrs.length
  stackOk : StackOk st.instrs st.stack
  pw : st.stack.Pairwise (fun a b => b < a)
  paired : Paired st.instrs
  starts : StartsOnStack st.instrs st.stack
  startPaired : StartPaired st.instrs

/-- Record of which operator produced the newest instruction: before any
operator the vector is empty, afterwards the last instruction is a loop
start only when the last operator was an open bracket, and a loop end
only when it was a close bracket. -/
def LastOk : Option Char → PState → Prop
  | none, st => st.instrs = []
  | some c, st => ∃ i, st.instrs.getLast? = some i ∧
      (tag i = 6 → c = '[') ∧ (tag i = 7 → c = ']')

/-- C1: the specification claims every source text with balanced,
properly nested brackets compiles successfully with at most one
instruction per operator character; the code disagrees: on the balanced
source consisting of the four characters open, open, close, close, the
grouping pass merges the two adjacent placeholder OpLstart instructions
(variant_eq compares discriminants only), the bracket stack keeps a
stale position, and handling the first close bracket panics indexing
the shrunk vector, so compilation aborts instead of succeeding. -/
theorem c1_balanced_source_crashes :
    balanced ['[', '[', ']', ']'] = true ∧
    preprocess ['[', '[', ']', ']'] = .error .indexOutOfBounds :=
  ⟨rfl, rfl⟩

/-- C2: the specification claims loop markers are never merged, every
compiled close bracket yielding its own OpLend; the code disagrees: the
source with two nested loops around single increments compiles its two
close brackets to a single OpLend, because the discriminant-only merge
check matches the two adjacent OpLend instructions and pops the newer
one (Instruction.inc being a no-op on loop markers), leaving the outer
OpLstart aimed one past the end of the vector. -/
theorem c2_adjacent_loopend_merged :
    preprocess ['[', '+', '[', '+', ']', ']'] =
      .ok [.OpLstart 5, .OpVinc 1, .OpLstart 4, .OpVinc 1, .OpLend 3] :=
  rfl

/-- C3: seven of the eight claimed operator mappings hold, but the
comma does not: the match in preprocess has no comma arm, so the comma
falls to the catch-all skip and a source consisting of a comma compiles
to the empty instruction sequence with no Input instruction at all. -/
theorem c3_char_mapping_comma_skipped :
    preprocess ['+'] = .ok [.OpVinc 1] ∧
    preprocess ['-'] = .ok [.OpVdec 1] ∧
    preprocess ['>'] = .ok [.OpPinc 1] ∧
    preprocess ['<'] = .ok [.OpPdec 1] ∧
    preprocess ['.'] = .ok [.OpOut 1] ∧
    preprocess ['[', ']'] = .ok [.OpLstart 1, .OpLend 1] ∧
    preprocess [','] = .ok [] :=
  ⟨rfl, rfl, rfl, rfl, rfl, rfl, rfl⟩

/-- C4: the specification claims the cell index stays inside the tape
under every pointer policy; the code disagrees: executing the compiled
form of a pointer increment followed by a value increment on a tape of
length one moves the cell index to one with no bounds or policy check,
and the following cell access panics out of bounds. -/
theorem c4_pointer_leaves_tape :
    preprocess ['>', '+'] = .ok [.OpPinc 1, .OpVinc 1] ∧
    execute [.OpPinc 1, .OpVinc 1] 3 [0] 0 0 [] = some (.panicked []) :=
  ⟨rfl, rfl⟩

/-- C5: the specification claims each merged run applies its unit effect
repeat times with the value policy consulted at every unit step over the
configured range; the code disagrees: ten plus signs compile to one
OpVinc with quantity ten, and execution adds the whole quantity in a
single wrapping u8 addition, never consulting any policy or configured
bound, so with a configured range of zero to nine the cell ends at ten
where per-step wrapping would give zero. -/
theorem c5_bulk_add_ignores_policy :
    preprocess (List.replicate 10 '+') = .ok [.OpVinc 10] ∧
    execute [.OpVinc 10] 2 [0] 0 0 [] = some (.finished [10] []) :=
  ⟨rfl, rfl⟩

/-- C7: the specification claims that with the error pointer policy and
a tape of length one, a single pointer increment aborts with a pointer
overflow error; the code disagrees: no policy is ever consulted, the
cell index silently becomes one, and the run ends normally because the
instruction index reaches the end of the sequence. -/
theorem c7_pointer_error_policy_not_raised :
    preprocess ['>'] = .ok [.OpPinc 1] ∧
    execute [.OpPinc 1] 2 [0] 0 0 [] = some (.finished [0] []) :=
  ⟨rfl, rfl⟩

/-- C8: the two simple unmatched-bracket cases do abort with the claimed
distinct errors, but the universal claim fails: a source whose unmatched
close bracket is preceded by adjacent identical brackets aborts with the
index-out-of-bounds panic of the corrupted bracket stack instead of the
unmatched-close error, and likewise a source leaving an open bracket
unresolved can abort with that panic instead of the unmatched-open
error. -/
theorem c8_unmatched_bracket_errors :
    preprocess [']'] = .error .unmatchedClose ∧
    preprocess ['['] = .error .unmatchedOpen ∧
    preprocess ['[', '[', ']', ']', ']'] = .error .indexOutOfBounds ∧
    preprocess ['[', '[', ']'] = .error .indexOutOfBounds :=
  ⟨rfl, rfl, rfl, rfl⟩

/-- C9: the specification claims reaching the end of the instruction
sequence is the only and normal termination, the empty sequence
terminating immediately; the code disagrees: an all-comment source
compiles to the empty sequence, and on it the guard computes the
wrapping usize value of length minus one, so the guard never fires and
the fetch of instruction zero panics out of bounds instead of
terminating normally. -/
theorem c9_empty_program_panics :
    preprocess ['h', 'i'] = .ok ([] : List Instruction) ∧
    execute [] 1 [0, 0] 0 0 [] = some (.panicked []) :=
  ⟨rfl, rfl⟩

/-- C10: the engine's observable behaviour is independent of every
configuration field except the cell count: two runs on the same
instruction sequence with the same tape length agree exactly, whatever
the bounds, policies and EOF settings, because neither preprocess nor
execute ever reads those fields. -/
theorem c10_config_independent (a1 a2 : Cli) (instructions : List Instruction)
    (fuel : Nat) (h : a1.cells = a2.cells) :
    runProgram a1 instructions fuel = runProgram a2 instructions fuel := by
  unfold runProgram
  rw [h]

/-- Witness for c10_config_independent at two configurations agreeing
only in the cell count. -/
theorem c10_config_independent_witness :
    runProgram ⟨0, 255, 2, "0", "-", "r", "w", "w"⟩ [.OpVinc 3] 3 =
      runProgram ⟨7, 99, 2, "n", "x", "d", "e", "i"⟩ [.OpVinc 3] 3 :=
  c10_config_independent _ _ _ _ rfl

theorem variant_eq_iff_tag (a b : Instruction) :
    variant_eq a b = true ↔ tag a = tag b := by
  cases a <;> cases b <;> simp [variant_eq, tag]

theorem tag_inc (a : Instruction) : tag a.inc = tag a := by
  cases a <;> rfl

theorem tag_eq_six {a : Instruction} (h : tag a = 6) :
    ∃ x, a = .OpLstart x := by
  cases a <;> simp [tag] at h ⊢

theorem tag_eq_seven {a : Instruction} (h : tag a = 7) :
    ∃ x, a = .OpLend x := by
  cases a <;> simp [tag] at h ⊢

theorem get?_some_lt {α : Type} {l : List α} {n : Nat} {a : α}
    (h : l.get? n = some a) : n < l.length :=
  (List.get?_eq_some.mp h).1

theorem get?_some_of_lt {α : Type} {l : List α} {n : Nat}
    (h : n < l.length) : ∃ a, l.get? n = some a := by
  cases hg : l.get? n with
  | none => exact absurd (List.get?_eq_none.mp hg) (Nat.not_le.mpr h)
  | some a => exact ⟨a, rfl⟩

theorem get?_concat_cases {α : Type} {l : List α} {w : α} {i : Nat} {v : α}
    (h : (l ++ [w]).get? i = some v) :
    (i = l.length ∧ v = w) ∨ (i < l.length ∧ l.get? i = some v) := by
  rcases Nat.lt_or_ge i l.length with hi | hi
  · exact Or.inr ⟨hi, by rw [← List.get?_append hi]; exact h⟩
  · have hlt : i < l.length + 1 := by
      have := get?_some_lt h
      simpa using this
    have hie : i = l.length := Nat.le_antisymm (Nat.lt_succ_iff.mp hlt) hi
    subst hie
    rw [List.get?_concat_length] at h
    exact Or.inl ⟨rfl, (Option.some.inj h).symm⟩

theorem get?_set_cases {α : Type} {l : List α} {j : Nat} {b : α} {i : Nat} {v : α}
    (h : (l.set j b).get? i = some v) :
    (i = j ∧ j < l.length ∧ v = b) ∨ (i ≠ j ∧ l.get? i = some v) := by
  by_cases hij : i = j
  · subst hij
    have hlt : i < l.length := by
      have := get?_some_lt h
      simpa using this
    rw [List.get?_set_eq_of_lt b hlt] at h
    exact Or.inl ⟨rfl, hlt, (Option.some.inj h).symm⟩
  · exact Or.inr ⟨hij, by rw [← List.get?_set_ne b l (fun e => hij e.symm)]; exact h⟩

theorem groupStep_push_nonloop (l : List Instruction) (sk : List Nat)
    (w : Instruction) (hw6 : tag w ≠ 6) (hw7 : tag w ≠ 7)
    (hso : StackOk l sk) (hpw : sk.Pairwise (fun a b => b < a))
    (hpa : Paired l) (hst : StartsOnStack l sk) (hsp : StartPaired l) :
    ∀ st', groupStep (l ++ [w]) l.length sk = .ok st' →
      PreInv st' ∧ st'.stack = sk ∧
        ∃ i, st'.instrs.getLast? = some i ∧ tag i = tag w := by
  intro st' h
  cases hn : l.length with
  | zero =>
    have hle : l = [] := List.length_eq_zero.mp hn
    subst hle
    rw [hn] at h
    simp only [groupStep, List.nil_append, gt_iff_lt, Nat.lt_irrefl, if_false] at h
    obtain rfl := (Except.ok.inj h)
    refine ⟨⟨rfl, ?_, hpw, ?_, ?_, ?_⟩, rfl, ⟨w, rfl, rfl⟩⟩
    · intro p hp
      exact absurd (hso p hp).1 (Nat.not_lt_zero p)
    · intro i d hd
      cases i with
      | zero =>
        have hw : w = .OpLend d := Option.some.inj hd
        exact absurd (by rw [hw]; rfl) hw7
      | succ i2 => simp [List.get?] at hd
    · intro p hp
      cases p with
      | zero =>
        have hw : w = .OpLstart 0 := Option.some.inj hp
        exact absurd (by rw [hw]; rfl) hw6
      | succ p2 => simp [List.get?] at hp
    · intro p d hp hd1
      cases p with
      | zero =>
        have hw : w = .OpLstart d := Option.some.inj hp
        exact absurd (by rw [hw]; rfl) hw6
      | succ p2 => simp [List.get?] at hp
  | succ n =>
    have hnlt : n < l.length := by omega
    obtain ⟨a, ha⟩ := get?_some_of_lt hnlt
    have hma : (l ++ [w]).get? n = some a := by rw [List.get?_append hnlt]; exact ha
    have hmw : (l ++ [w]).get? l.length = some w := List.get?_concat_length l w
    rw [hn] at h hmw
    unfold groupStep at h
    rw [if_pos (Nat.succ_pos n)] at h
    simp only [Nat.add_sub_cancel] at h
    rw [hma, hmw] at h
    dsimp only at h
    by_cases hv : variant_eq a w = true
    · rw [if_pos hv] at h
      have htag : tag a = tag w := (variant_eq_iff_tag a w).mp hv
      have ha6 : tag a ≠ 6 := by rw [htag]; exact hw6
      have ha7 : tag a ≠ 7 := by rw [htag]; exact hw7
      have hinc6 : tag a.inc ≠ 6 := by rw [tag_inc]; exact ha6
      have hinc7 : tag a.inc ≠ 7 := by rw [tag_inc]; exact ha7
      have hdl : (l ++ [w]).dropLast = l := List.dropLast_concat
      have hinj := Except.ok.inj h
      rw [hdl] at hinj
      obtain rfl := hinj
      have hlen2 : (l.set n a.inc).length = n + 1 := by simp [hn]
      have hgn : (l.set n a.inc).get? n = some a.inc :=
        List.get?_set_eq_of_lt a.inc hnlt
      refine ⟨⟨?_, ?_, hpw, ?_, ?_, ?_⟩, rfl, ?_⟩
      · show n + 1 = (l.set n a.inc).length
        omega
      · show StackOk (l.set n a.inc) sk
        intro p hp
        obtain ⟨hp1, hp2⟩ := hso p hp
        have hpn : p ≠ n := by
          intro e; subst e
          rw [ha] at hp2
          have hae : a = .OpLstart 0 := Option.some.inj hp2
          exact ha6 (by rw [hae]; rfl)
        refine ⟨by omega, ?_⟩
        rw [List.get?_set_ne a.inc l (fun e => hpn e.symm)]
        exact hp2
      · show Paired (l.set n a.inc)
        intro i d hd
        rcases get?_set_cases hd with ⟨rfl, _, hvb⟩ | ⟨hne, hli⟩
        · exact absurd (by rw [← hvb]; rfl) hinc7
        · obtain ⟨p, hd1, hd2, hd3⟩ := hpa i d hli
          have hpn : p ≠ n := by
            intro e; subst e
            rw [ha] at hd3
            have hae : a = .OpLstart i := Option.some.inj hd3
            exact ha6 (by rw [hae]; rfl)
          refine ⟨p, hd1, hd2, ?_⟩
          rw [List.get?_set_ne a.inc l (fun e => hpn e.symm)]
          exact hd3
      · show StartsOnStack (l.set n a.inc) sk
        intro p hp
        rcases get?_set_cases hp with ⟨rfl, _, hvb⟩ | ⟨hne, hli⟩
        · exact absurd (by rw [← hvb]; rfl) hinc6
        · exact hst p hli
      · show StartPaired (l.set n a.inc)
        intro p d hp hd1
        rcases get?_set_cases hp with ⟨rfl, _, hvb⟩ | ⟨hne, hli⟩
        · exact absurd (by rw [← hvb]; rfl) hinc6
        · obtain ⟨hlt, hq⟩ := hsp p d hli hd1
          have hdn : d ≠ n := by
            intro e; subst e
            rw [ha] at hq
            have hae : a = .OpLend (p + 1) := Option.some.inj hq
            exact ha7 (by rw [hae]; rfl)
          refine ⟨hlt, ?_⟩
          rw [List.get?_set_ne a.inc l (fun e => hdn e.symm)]
          exact hq
      · show ∃ i, (l.set n a.inc).getLast? = some i ∧ tag i = tag w
        refine ⟨a.inc, ?_, by rw [tag_inc, htag]⟩
        rw [List.getLast?_eq_get?, hlen2]
        simpa using hgn
    · rw [if_neg hv] at h
      obtain rfl := Except.ok.inj h
      refine ⟨⟨?_, ?_, hpw, ?_, ?_, ?_⟩, rfl, ?_⟩
      · show n + 1 + 1 = (l ++ [w]).length
        simp [hn]
      · show StackOk (l ++ [w]) sk
        intro p hp
        obtain ⟨hp1, hp2⟩ := hso p hp
        refine ⟨by simp; omega, ?_⟩
        rw [List.get?_append hp1]
        exact hp2
      · show Paired (l ++ [w])
        intro i d hd
        rcases get?_concat_cases hd with ⟨rfl, hvw⟩ | ⟨hlt, hli⟩
        · exact absurd (by rw [← hvw]; rfl) hw7
        · obtain ⟨p, hd1, hd2, hd3⟩ := hpa i d hli
          refine ⟨p, hd1, hd2, ?_⟩
          rw [List.get?_append (by omega : p < l.length)]
          exact hd3
      · show StartsOnStack (l ++ [w]) sk
        intro p hp
        rcases get?_concat_cases hp with ⟨rfl, hvw⟩ | ⟨hlt, hli⟩
        · exact absurd (by rw [← hvw]; rfl) hw6
        · exact hst p hli
      · show StartPaired (l ++ [w])
        intro p d hp hd1
        rcases get?_concat_cases hp with ⟨rfl, hvw⟩ | ⟨hlt, hli⟩
        · exact absurd (by rw [← hvw]; rfl) hw6
        · obtain ⟨hplt, hq⟩ := hsp p d hli hd1
          have hdlt : d < l.length := get?_some_lt hq
          refine ⟨hplt, ?_⟩
          rw [List.get?_append hdlt]
          exact hq
      · exact ⟨w, List.getLast?_concat l, rfl⟩

theorem groupStep_push_lstart (l : List Instruction) (sk : List Nat)
    (hnl : ∀ i, l.getLast? = some i → tag i ≠ 6)
    (hso : StackOk l sk) (hpw : sk.Pairwise (fun a b => b < a))
    (hpa : Paired l) (hst : StartsOnStack l sk) (hsp : StartPaired l) :
    ∀ st', groupStep (l ++ [Instruction.OpLstart 0]) l.length (l.length :: sk) = .ok st' →
      PreInv st' ∧ st'.stack = l.length :: sk ∧
        ∃ i, st'.instrs.getLast? = some i ∧ tag i = 6 := by
  intro st' h
  cases hn : l.length with
  | zero =>
    have hle : l = [] := List.length_eq_zero.mp hn
    subst hle
    rw [hn] at h
    simp only [groupStep, List.nil_append, gt_iff_lt, Nat.lt_irrefl, if_false] at h
    obtain rfl := (Except.ok.inj h)
    refine ⟨⟨rfl, ?_, ?_, ?_, ?_, ?_⟩, rfl, ⟨.OpLstart 0, rfl, rfl⟩⟩
    · intro p hp
      rcases List.mem_cons.mp hp with rfl | hp2
      · exact ⟨Nat.zero_lt_one, rfl⟩
      · exact absurd (hso p hp2).1 (Nat.not_lt_zero p)
    · refine List.pairwise_cons.mpr ⟨?_, hpw⟩
      intro q hq
      exact absurd (hso q hq).1 (Nat.not_lt_zero q)
    · intro i d hd
      cases i with
      | zero => exact absurd (Option.some.inj hd) (by intro e; cases e)
      | succ i2 => simp [List.get?] at hd
    · intro p hp
      cases p with
      | zero => exact List.mem_cons_self 0 sk
      | succ p2 => simp [List.get?] at hp
    · intro p d hp hd1
      cases p with
      | zero =>
        have he : (Instruction.OpLstart 0) = .OpLstart d := Option.some.inj hp
        have hd0 : d = 0 := by cases he; rfl
        omega
      | succ p2 => simp [List.get?] at hp
  | succ n =>
    have hnlt : n < l.length := by omega
    obtain ⟨a, ha⟩ := get?_some_of_lt hnlt
    have hgl : l.getLast? = some a := by
      rw [List.getLast?_eq_get?, hn]
      simpa using ha
    have ha6 : tag a ≠ 6 := hnl a hgl
    have hv : variant_eq a (.OpLstart 0) = false := by
      rcases hb : variant_eq a (.OpLstart 0) with _ | _
      · rfl
      · exact absurd ((variant_eq_iff_tag a (.OpLstart 0)).mp hb) ha6
    have hma : (l ++ [Instruction.OpLstart 0]).get? n = some a := by
      rw [List.get?_append hnlt]; exact ha
    have hmw : (l ++ [Instruction.OpLstart 0]).get? l.length = some (.OpLstart 0) :=
      List.get?_concat_length l _
    rw [hn] at h hmw
    unfold groupStep at h
    rw [if_pos (Nat.succ_pos n)] at h
    simp only [Nat.add_sub_cancel] at h
    rw [hma, hmw] at h
    dsimp only at h
    rw [if_neg (by rw [hv]; exact Bool.false_ne_true)] at h
    obtain rfl := Except.ok.inj h
    refine ⟨⟨?_, ?_, ?_, ?_, ?_, ?_⟩, rfl, ?_⟩
    · show n + 1 + 1 = (l ++ [Instruction.OpLstart 0]).length
      simp [hn]
    · show StackOk (l ++ [Instruction.OpLstart 0]) ((n + 1) :: sk)
      intro p hp
      rcases List.mem_cons.mp hp with rfl | hp2
      · rw [← hn]
        refine ⟨by simp, ?_⟩
        exact List.get?_concat_length l _
      · obtain ⟨hp1, hp2'⟩ := hso p hp2
        refine ⟨by simp; omega, ?_⟩
        rw [List.get?_append hp1]
        exact hp2'
    · show ((n + 1) :: sk).Pairwise (fun a b => b < a)
      refine List.pairwise_cons.mpr ⟨?_, hpw⟩
      intro q hq
      have := (hso q hq).1
      omega
    · show Paired (l ++ [Instruction.OpLstart 0])
      intro i d hd
      rcases get?_concat_cases hd with ⟨rfl, hvw⟩ | ⟨hlt, hli⟩
      · exact absurd hvw (by intro e; cases e)
      · obtain ⟨p, hd1, hd2, hd3⟩ := hpa i d hli
        refine ⟨p, hd1, hd2, ?_⟩
        rw [List.get?_append (by omega : p < l.length)]
        exact hd3
    · show StartsOnStack (l ++ [Instruction.OpLstart 0]) ((n + 1) :: sk)
      intro p hp
      rcases get?_concat_cases hp with ⟨rfl, hvw⟩ | ⟨hlt, hli⟩
      · rw [hn]
        exact List.mem_cons_self (n + 1) sk
      · exact List.mem_cons_of_mem (n + 1) (hst p hli)
    · show StartPaired (l ++ [Instruction.OpLstart 0])
      intro p d hp hd1
      rcases get?_concat_cases hp with ⟨rfl, hvw⟩ | ⟨hlt, hli⟩
      · have hd0 : d = 0 := by cases hvw; rfl
        omega
      · obtain ⟨hplt, hq⟩ := hsp p d hli hd1
        have hdlt : d < l.length := get?_some_lt hq
        refine ⟨hplt, ?_⟩
        rw [List.get?_append hdlt]
        exact hq
    · exact ⟨.OpLstart 0, List.getLast?_concat l, rfl⟩

theorem groupStep_close (l : List Instruction) (sk : List Nat) (p : Nat)
    (hp : p < l.length)
    (hnl : ∀ i, l.getLast? = some i → tag i ≠ 7)
    (hso : StackOk l (p :: sk)) (hpw : (p :: sk).Pairwise (fun a b => b < a))
    (hpa : Paired l) (hst : StartsOnStack l (p :: sk)) (hsp : StartPaired l) :
    ∀ st', groupStep
        ((l.set p (Instruction.OpLstart l.length)) ++ [Instruction.OpLend (p + 1)])
        l.length sk = .ok st' →
      PreInv st' ∧ st'.stack = sk ∧
        ∃ i, st'.instrs.getLast? = some i ∧ tag i = 7 := by
  intro st' h
  cases hn : l.length with
  | zero => omega
  | succ n =>
    rw [hn] at h hp
    have hlp : l.get? p = some (Instruction.OpLstart 0) :=
      (hso p (List.mem_cons_self p sk)).2
    have hplen : (l.set p (Instruction.OpLstart (n + 1))).length = n + 1 := by
      simp [hn]
    have hnleL : n < (l.set p (Instruction.OpLstart (n + 1))).length := by omega
    obtain ⟨b, hb, hb7⟩ :
        ∃ b, (l.set p (Instruction.OpLstart (n + 1))).get? n = some b ∧ tag b ≠ 7 := by
      by_cases hpn : n = p
      · refine ⟨Instruction.OpLstart (n + 1), ?_, by simp [tag]⟩
        rw [hpn]
        exact List.get?_set_eq_of_lt _ (by omega)
      · obtain ⟨a, ha⟩ := get?_some_of_lt (show n < l.length by omega)
        have hgl : l.getLast? = some a := by
          rw [List.getLast?_eq_get?, hn]
          simpa using ha
        refine ⟨a, ?_, hnl a hgl⟩
        rw [List.get?_set_ne _ l (fun e => hpn e.symm)]
        exact ha
    have hmb : ((l.set p (Instruction.OpLstart (n + 1))) ++
        [Instruction.OpLend (p + 1)]).get? n = some b := by
      rw [List.get?_append hnleL]
      exact hb
    have hmw : ((l.set p (Instruction.OpLstart (n + 1))) ++
        [Instruction.OpLend (p + 1)]).get? (n + 1) = some (Instruction.OpLend (p + 1)) := by
      have := List.get?_concat_length (l.set p (Instruction.OpLstart (n + 1)))
        (Instruction.OpLend (p + 1))
      rw [hplen] at this
      exact this
    have hv : variant_eq b (Instruction.OpLend (p + 1)) = false := by
      rcases hbv : variant_eq b (Instruction.OpLend (p + 1)) with _ | _
      · rfl
      · exact absurd ((variant_eq_iff_tag _ _).mp hbv) hb7
    unfold groupStep at h
    rw [if_pos (Nat.succ_pos n)] at h
    simp only [Nat.add_sub_cancel] at h
    rw [hmb, hmw] at h
    dsimp only at h
    rw [if_neg (by rw [hv]; exact Bool.false_ne_true)] at h
    obtain rfl := Except.ok.inj h
    have hsktail : ∀ q ∈ sk, q < p := (List.pairwise_cons.mp hpw).1
    refine ⟨⟨?_, ?_, List.Pairwise.of_cons hpw, ?_, ?_, ?_⟩, rfl, ?_⟩
    · show n + 1 + 1 =
        ((l.set p (Instruction.OpLstart (n + 1))) ++ [Instruction.OpLend (p + 1)]).length
      simp [hn]
    · show StackOk
        ((l.set p (Instruction.OpLstart (n + 1))) ++ [Instruction.OpLend (p + 1)]) sk
      intro q hq
      obtain ⟨hq1, hq2⟩ := hso q (List.mem_cons_of_mem p hq)
      have hqp : q ≠ p := Nat.ne_of_lt (hsktail q hq)
      refine ⟨by simp; omega, ?_⟩
      rw [List.get?_append (by omega : q < (l.set p (Instruction.OpLstart (n + 1))).length)]
      rw [List.get?_set_ne _ l (fun e => hqp e.symm)]
      exact hq2
    · show Paired
        ((l.set p (Instruction.OpLstart (n + 1))) ++ [Instruction.OpLend (p + 1)])
      intro i d2 hd
      rcases get?_concat_cases hd with ⟨hi, hvw⟩ | ⟨hlt, hli⟩
      · have hd2 : d2 = p + 1 := by cases hvw; rfl
        refine ⟨p, hd2, ?_, ?_⟩
        · omega
        · rw [List.get?_append (by omega : p < (l.set p (Instruction.OpLstart (n + 1))).length)]
          rw [List.get?_set_eq_of_lt _ (by omega : p < l.length)]
          rw [hi, hplen]
      · rcases get?_set_cases hli with ⟨hip, _, hvb⟩ | ⟨hne, hli2⟩
        · exact absurd hvb (by intro e; cases e)
        · obtain ⟨q, hq1, hq2, hq3⟩ := hpa i d2 hli2
          have hqp : q ≠ p := by
            intro e; subst e
            rw [hlp] at hq3
            have he : Instruction.OpLstart 0 = Instruction.OpLstart i := Option.some.inj hq3
            have : i = 0 := by cases he; rfl
            omega
          refine ⟨q, hq1, hq2, ?_⟩
          rw [List.get?_append (by omega : q < (l.set p (Instruction.OpLstart (n + 1))).length)]
          rw [List.get?_set_ne _ l (fun e => hqp e.symm)]
          exact hq3
    · show StartsOnStack
        ((l.set p (Instruction.OpLstart (n + 1))) ++ [Instruction.OpLend (p + 1)]) sk
      intro q hq
      rcases get?_concat_cases hq with ⟨hi, hvw⟩ | ⟨hlt, hli⟩
      · exact absurd hvw (by intro e; cases e)
      · rcases get?_set_cases hli with ⟨hip, _, hvb⟩ | ⟨hne, hli2⟩
        · exact absurd hvb (by intro e; cases e)
        · rcases List.mem_cons.mp (hst q hli2) with rfl | hq2
          · exact absurd rfl hne
          · exact hq2
    · show StartPaired
        ((l.set p (Instruction.OpLstart (n + 1))) ++ [Instruction.OpLend (p + 1)])
      intro q d2 hq hd1
      rcases get?_concat_cases hq with ⟨hi, hvw⟩ | ⟨hlt, hli⟩
      · exact absurd hvw (by intro e; cases e)
      · rcases get?_set_cases hli with ⟨hip, _, hvb⟩ | ⟨hne, hli2⟩
        · have hd2 : d2 = n + 1 := by cases hvb; rfl
          subst hip
          refine ⟨by omega, ?_⟩
          rw [hd2]
          exact hmw
        · obtain ⟨hq1, hq2⟩ := hsp q d2 hli2 hd1
          have hdp : d2 ≠ p := by
            intro e; subst e
            rw [hlp] at hq2
            exact absurd (Option.some.inj hq2) (by intro e2; cases e2)
          have hdlt : d2 < l.length := get?_some_lt hq2
          refine ⟨hq1, ?_⟩
          rw [List.get?_append (by omega : d2 < (l.set p (Instruction.OpLstart (n + 1))).length)]
          rw [List.get?_set_ne _ l (fun e => hdp e.symm)]
          exact hq2
    · exact ⟨Instruction.OpLend (p + 1),
        List.getLast?_concat (l.set p (Instruction.OpLstart (n + 1))), rfl⟩

theorem stepChar_push_case (st : PState) (w : Instruction) (c : Char)
    (hw6 : tag w ≠ 6) (hw7 : tag w ≠ 7) (hinv : PreInv st) :
    ∀ st', groupStep (st.instrs ++ [w]) st.instrs.length st.stack = .ok st' →
      PreInv st' ∧ LastOk (some c) st' := by
  intro st' h
  obtain ⟨hinv', hsk, i, hgl, htg⟩ :=
    groupStep_push_nonloop st.instrs st.stack w hw6 hw7 hinv.stackOk hinv.pw
      hinv.paired hinv.starts hinv.startPaired st' h
  refine ⟨hinv', ⟨i, hgl, ?_, ?_⟩⟩
  · intro e
    rw [e] at htg
    exact absurd htg.symm hw6
  · intro e
    rw [e] at htg
    exact absurd htg.symm hw7

theorem stepChar_inv (st : PState) (c : Char) (prev : Option Char)
    (hop : isOp c = true) (hpv : prevOk prev c = true)
    (hinv : PreInv st) (hlast : LastOk prev st) :
    ∀ st', stepChar st c = .ok st' → PreInv st' ∧ LastOk (some c) st' := by
  obtain ⟨l, idx, sk⟩ := st
  have hidx : idx = l.length := hinv.idx
  simp only [isOp, Bool.or_eq_true, beq_iff_eq] at hop
  rcases hop with ((((((rfl | rfl) | rfl) | rfl) | rfl) | rfl) | rfl)
  · intro st' h
    rw [show stepChar ⟨l, idx, sk⟩ '+' = groupStep (l ++ [Instruction.OpVinc 1]) idx sk
      from rfl, hidx] at h
    exact stepChar_push_case ⟨l, l.length, sk⟩ (.OpVinc 1) '+' (by decide) (by decide)
      (by rw [← hidx]; exact hinv) st' h
  · intro st' h
    rw [show stepChar ⟨l, idx, sk⟩ '-' = groupStep (l ++ [Instruction.OpVdec 1]) idx sk
      from rfl, hidx] at h
    exact stepChar_push_case ⟨l, l.length, sk⟩ (.OpVdec 1) '-' (by decide) (by decide)
      (by rw [← hidx]; exact hinv) st' h
  · intro st' h
    rw [show stepChar ⟨l, idx, sk⟩ '>' = groupStep (l ++ [Instruction.OpPinc 1]) idx sk
      from rfl, hidx] at h
    exact stepChar_push_case ⟨l, l.length, sk⟩ (.OpPinc 1) '>' (by decide) (by decide)
      (by rw [← hidx]; exact hinv) st' h
  · intro st' h
    rw [show stepChar ⟨l, idx, sk⟩ '<' = groupStep (l ++ [Instruction.OpPdec 1]) idx sk
      from rfl, hidx] at h
    exact stepChar_push_case ⟨l, l.length, sk⟩ (.OpPdec 1) '<' (by decide) (by decide)
      (by rw [← hidx]; exact hinv) st' h
  · intro st' h
    rw [show stepChar ⟨l, idx, sk⟩ '.' = groupStep (l ++ [Instruction.OpOut 1]) idx sk
      from rfl, hidx] at h
    exact stepChar_push_case ⟨l, l.length, sk⟩ (.OpOut 1) '.' (by decide) (by decide)
      (by rw [← hidx]; exact hinv) st' h
  · intro st' h
    have hnl : ∀ i, l.getLast? = some i → tag i ≠ 6 := by
      intro i hg e
      cases prev with
      | none =>
        have hle : l = [] := hlast
        rw [hle] at hg
        cases hg
      | some c0 =>
        obtain ⟨i0, hg0, h6, _⟩ := hlast
        have hii : i0 = i := Option.some.inj (hg0.symm.trans hg)
        have hc0 : c0 = '[' := h6 (by rw [hii]; exact e)
        rw [hc0] at hpv
        exact absurd hpv (by decide)
    rw [show stepChar ⟨l, idx, sk⟩ '[' =
        groupStep (l ++ [Instruction.OpLstart 0]) idx (l.length :: sk) from rfl, hidx] at h
    obtain ⟨hinv', hsk, i, hgl, htg⟩ :=
      groupStep_push_lstart l sk hnl hinv.stackOk hinv.pw hinv.paired hinv.starts
        hinv.startPaired st' h
    refine ⟨hinv', ⟨i, hgl, fun _ => rfl, ?_⟩⟩
    intro e
    rw [e] at htg
    exact absurd htg (by decide)
  · intro st' h
    have hnl : ∀ i, l.getLast? = some i → tag i ≠ 7 := by
      intro i hg e
      cases prev with
      | none =>
        have hle : l = [] := hlast
        rw [hle] at hg
        cases hg
      | some c0 =>
        obtain ⟨i0, hg0, _, h7⟩ := hlast
        have hii : i0 = i := Option.some.inj (hg0.symm.trans hg)
        have hc0 : c0 = ']' := h7 (by rw [hii]; exact e)
        rw [hc0] at hpv
        exact absurd hpv (by decide)
    cases hstk : sk with
    | nil =>
      rw [hstk] at h
      rw [show stepChar ⟨l, idx, []⟩ ']' = .error .unmatchedClose from rfl] at h
      cases h
    | cons dest rest =>
      rw [hstk] at h
      rw [show stepChar ⟨l, idx, dest :: rest⟩ ']' =
          (if dest < l.length then
            groupStep ((l.set dest (Instruction.OpLstart l.length)) ++
              [Instruction.OpLend (dest + 1)]) idx rest
          else .error .indexOutOfBounds) from rfl] at h
      by_cases hd : dest < l.length
      · rw [if_pos hd, hidx] at h
        have hinvs : PreInv ⟨l, l.length, dest :: rest⟩ := by
          rw [← hidx, ← hstk]
          exact hinv
        obtain ⟨hinv', hsk', i, hgl, htg⟩ :=
          groupStep_close l rest dest hd hnl hinvs.stackOk hinvs.pw hinvs.paired
            hinvs.starts hinvs.startPaired st' h
        refine ⟨hinv', ⟨i, hgl, ?_, fun _ => rfl⟩⟩
        intro e
        rw [e] at htg
        exact absurd htg (by decide)
      · rw [if_neg hd] at h
        cases h

theorem stepChar_skip (st : PState) (c : Char) (hop : isOp c = false) :
    stepChar st c = .ok st := by
  simp only [isOp, Bool.or_eq_false_iff, beq_eq_false_iff_ne] at hop
  obtain ⟨⟨⟨⟨⟨⟨h1, h2⟩, h3⟩, h4⟩, h5⟩, h6⟩, h7⟩ := hop
  unfold stepChar
  rw [if_neg h1, if_neg h2, if_neg h3, if_neg h4, if_neg h5, if_neg h6, if_neg h7]

theorem noAdj_tail {a : Char} {l2 : List Char}
    (h : noAdjBrackets (a :: l2) = true) :
    noAdjBrackets l2 = true ∧ ∀ b, l2.head? = some b → adjOk a b = true := by
  cases l2 with
  | nil => exact ⟨rfl, fun b hb => by cases hb⟩
  | cons b t =>
    have h2 : (adjOk a b && noAdjBrackets (b :: t)) = true := h
    obtain ⟨ha, hb⟩ := Bool.and_eq_true_iff.mp h2
    exact ⟨hb, fun b2 hb2 => (Option.some.inj hb2) ▸ ha⟩

theorem processChars_inv (cs : List Char) : ∀ (st : PState) (prev : Option Char),
    noAdjBrackets (cs.filter isOp) = true →
    (∀ c2, (cs.filter isOp).head? = some c2 → prevOk prev c2 = true) →
    PreInv st → LastOk prev st →
    ∀ st', processChars cs st = .ok st' → PreInv st' := by
  induction cs with
  | nil =>
    intro st prev _ _ hinv _ st' h
    obtain rfl := Except.ok.inj (show Except.ok st = .ok st' from h)
    exact hinv
  | cons c cs ih =>
    intro st prev hadj hhead hinv hlast st' h
    have hh : (match stepChar st c with
        | Except.error e => Except.error e
        | Except.ok st2 => processChars cs st2) = Except.ok st' := h
    by_cases hop : isOp c = true
    · have hfil : (c :: cs).filter isOp = c :: cs.filter isOp :=
        List.filter_cons_of_pos hop
      rw [hfil] at hadj hhead
      obtain ⟨hadj2, hfwd⟩ := noAdj_tail hadj
      have hpc : prevOk prev c = true := hhead c rfl
      cases hsc : stepChar st c with
      | error e =>
        rw [hsc] at hh
        cases hh
      | ok st1 =>
        rw [hsc] at hh
        obtain ⟨hinv1, hlast1⟩ := stepChar_inv st c prev hop hpc hinv hlast st1 hsc
        exact ih st1 (some c) hadj2 (fun c2 hc2 => hfwd c2 hc2) hinv1 hlast1 st' hh
    · have hopf : isOp c = false := Bool.eq_false_iff.mpr hop
      have hfil : (c :: cs).filter isOp = cs.filter isOp :=
        List.filter_cons_of_neg (by simpa using hop)
      rw [hfil] at hadj hhead
      rw [stepChar_skip st c hopf] at hh
      exact ih st prev hadj hhead hinv hlast st' hh

theorem preInv_init : PreInv ⟨[], 0, []⟩ := by
  refine ⟨rfl, ?_, List.Pairwise.nil, ?_, ?_, ?_⟩
  · intro p hp
    cases hp
  · intro i d hd
    cases i <;> cases hd
  · intro p hp
    cases p <;> cases hp
  · intro p d hp _
    cases p <;> cases hp

/-- C6, counterexample: compiling the two-character source of one open
and one close bracket yields a LoopStart whose target is 1, the index of
its matching LoopEnd itself, not 2 as the claim's one-past reading
requires; moreover on sources with adjacent identical brackets
(here three nested loops around an increment) the merge defect corrupts
the bookkeeping outright, so the pairing can only be stated for sources
free of adjacent identical brackets. -/
theorem c6_loopstart_target_counterexample :
    preprocess ['[', ']'] = .ok [.OpLstart 1, .OpLend 1] ∧
    [Instruction.OpLstart 1, Instruction.OpLend 1].get? 0 ≠
      some (Instruction.OpLstart 2) ∧
    preprocess ['[', '[', '[', '+', ']', ']', ']'] =
      .ok [.OpLstart 3, .OpLstart 3, .OpLend 2] :=
  ⟨rfl, by decide, rfl⟩

/-- C6, amended: for every source whose consecutive operator characters
never repeat an identical bracket, successful compilation pairs the loop
markers mutually: every LoopEnd's target is the index immediately after
its matching LoopStart, and that LoopStart's target is the index of the
LoopEnd itself (execution after a skipped loop resumes at the LoopEnd,
which falls through when the cell is zero). -/
theorem c6_loop_targets_amended (buffer : List Char) (instrs : List Instruction)
    (hadj : noAdjBrackets (buffer.filter isOp) = true)
    (hok : preprocess buffer = .ok instrs) :
    (∀ i d, instrs.get? i = some (Instruction.OpLend d) →
       ∃ p, d = p + 1 ∧ p < i ∧ instrs.get? p = some (Instruction.OpLstart i)) ∧
    (∀ p d, instrs.get? p = some (Instruction.OpLstart d) →
       p < d ∧ instrs.get? d = some (Instruction.OpLend (p + 1))) := by
  unfold preprocess at hok
  cases hpc : processChars buffer ⟨[], 0, []⟩ with
  | error e =>
    rw [hpc] at hok
    cases hok
  | ok st =>
    rw [hpc] at hok
    dsimp only at hok
    by_cases hs : st.stack.length > 0
    · rw [if_pos hs] at hok
      cases hok
    · rw [if_neg hs] at hok
      obtain rfl := Except.ok.inj hok
      have hinv := processChars_inv buffer ⟨[], 0, []⟩ none hadj
        (fun c2 _ => rfl) preInv_init rfl st hpc
      have hstack : st.stack = [] :=
        List.length_eq_zero.mp (Nat.eq_zero_of_not_pos hs)
      constructor
      · exact hinv.paired
      · intro p d hp
        cases d with
        | zero =>
          have hmem := hinv.starts p hp
          rw [hstack] at hmem
          cases hmem
        | succ d2 =>
          exact hinv.startPaired p (d2 + 1) hp (Nat.succ_le_succ (Nat.zero_le d2))

/-- Witness for c6_loop_targets_amended on the source of one loop around
an increment: the LoopStart at index 0 has target 2, the position of its
LoopEnd, whose own target is 1, the index right after the LoopStart. -/
theorem c6_loop_targets_witness :
    0 < 2 ∧ [Instruction.OpLstart 2, Instruction.OpVinc 1,
      Instruction.OpLend 1].get? 2 = some (Instruction.OpLend (0 + 1)) :=
  (c6_loop_targets_amended ['[', '+', ']']
    [Instruction.OpLstart 2, Instruction.OpVinc 1, Instruction.OpLend 1]
    (by decide) (by rfl)).2 0 2 rfl
